import Mathlib

/-!
# Verification of Gitstaller's version-resolution and orchestration logic

Shallow embedding of `gitstaller.py` (class `Gitstaller`).  Pure string and
list manipulation is translated directly; the external collaborators
(GitPython, subprocess, filesystem) are modelled as oracles in an `Env`
record, and the mutable object state (`self.metadata`, the metadata file, the
package workspaces on disk) as an explicit `StoreState` threaded through the
operations.

Python exceptions that the source catches are folded into the result values;
exceptions that escape the shown `try` blocks (`IndexError`, `TypeError`,
`PermissionError` in `update`, repository-open failures) are modelled by the
`crashed` outcome / the `Except` error component.

Strings are manipulated through their character lists so that every
definition evaluates by kernel reduction on concrete inputs.
-/

/-- Python exceptions that can escape the source's `try` blocks. -/
inductive PyErr where
  | typeError
  | indexError
  | permissionError
  | repoError
deriving DecidableEq, Repr

/-- Python `s.split(sep)` for a one-character separator: splits at every
occurrence, keeping empty pieces; the empty string yields one empty piece. -/
def pySplitCh (sep : Char) : List Char → List (List Char)
  | [] => [[]]
  | c :: cs =>
    match pySplitCh sep cs with
    | [] => [[]]
    | piece :: rest =>
      if c = sep then [] :: piece :: rest else (c :: piece) :: rest

/-!
## `distutils.version.LooseVersion`

`LooseVersion.parse` splits a version string with the regex
`(\d+ | [a-z]+ | \.)` (dots are dropped, digit runs become `int`s, everything
else stays a string; maximal runs of characters matching none of the three
alternatives come out as single string components).  `\d`/`[a-z]` are
modelled as the ASCII ranges, which is what version tags use in practice.

Comparison (`LooseVersion._cmp`) is Python list comparison of the parsed
component lists: walk to the first index where components are not `==` and
compare there with `<`; in Python 3 an `int`-vs-`str` comparison at that
index raises `TypeError`, which we model as `none`.
-/

/-- One parsed `LooseVersion` component: an integer or a string
(strings kept as their character lists so that Python's code-point
comparison is directly expressible). -/
inductive LVComp where
  | num (n : Nat)
  | str (s : List Char)
deriving DecidableEq, Repr

/-- Value of a run of ASCII digits, as Python `int()` of the run. -/
def digitsVal (l : List Char) : Nat :=
  l.foldl (fun n c => n * 10 + (c.toNat - 48)) 0

/-- The regex alternative `[a-z]` (ASCII lowercase). -/
def isLowerCh (c : Char) : Bool :=
  97 ≤ c.toNat && c.toNat ≤ 122

/-- A character matching none of the three regex alternatives
`\d`, `[a-z]`, `.`; maximal runs of these form string components. -/
def isOtherCh (c : Char) : Bool :=
  !(c.isDigit || isLowerCh c || c == '.')

/-- Component scan of `LooseVersion.parse` over the character list.  The
fuel argument (instantiated with the list length) only makes the maximal-run
recursion structural; each step consumes at least one character, so the fuel
never runs out. -/
def lvParseAux : Nat → List Char → List LVComp
  | 0, _ => []
  | _, [] => []
  | fuel + 1, c :: cs =>
    if c.isDigit then
      .num (digitsVal (c :: cs.takeWhile Char.isDigit)) ::
        lvParseAux fuel (cs.dropWhile Char.isDigit)
    else if isLowerCh c then
      .str (c :: cs.takeWhile isLowerCh) :: lvParseAux fuel (cs.dropWhile isLowerCh)
    else if c = '.' then
      lvParseAux fuel cs
    else
      .str (c :: cs.takeWhile isOtherCh) :: lvParseAux fuel (cs.dropWhile isOtherCh)

/-- `LooseVersion(s).version`: the parsed component list. -/
def lvParse (s : List Char) : List LVComp :=
  lvParseAux s.length s

/-- Three-way comparison of naturals. -/
def natCmp (m n : Nat) : Ordering :=
  if m < n then .lt else if m = n then .eq else .gt

/-- Python string comparison: lexicographic on code points. -/
def chListCmp : List Char → List Char → Ordering
  | [], [] => .eq
  | [], _ :: _ => .lt
  | _ :: _, [] => .gt
  | a :: as, b :: bs =>
    match natCmp a.toNat b.toNat with
    | .eq => chListCmp as bs
    | o => o

/-- Comparison of two components; `none` models the Python 3 `TypeError`
raised by an `int`-vs-`str` comparison. -/
def compCmp : LVComp → LVComp → Option Ordering
  | .num a, .num b => some (natCmp a b)
  | .str a, .str b => some (chListCmp a b)
  | .num _, .str _ => none
  | .str _, .num _ => none

/-- Python list comparison of component lists (the body of
`LooseVersion._cmp`): equal prefixes are skipped; the first differing
index decides; a strict prefix is smaller. -/
def lvCmp : List LVComp → List LVComp → Option Ordering
  | [], [] => some .eq
  | [], _ :: _ => some .lt
  | _ :: _, [] => some .gt
  | a :: as, b :: bs => if a = b then lvCmp as bs else compCmp a b

/-- Comparison of two tag names through their `LooseVersion` keys. -/
def nameCmp (a b : String) : Option Ordering :=
  lvCmp (lvParse a.data) (lvParse b.data)

/-!
## `sorted(..., reverse=True)` with a failing comparator

Python's sort raises the comparator's exception; we model the descending
sort as an insertion sort that propagates the first `TypeError`.  When every
pair of elements is comparable this has the same observable behaviour as the
source's sort for the use made of it (only a greatest element is consumed,
and the loose order is transitive where defined).
-/

/-- Insert `x` into a descending list, keeping `x` in front of the first
element it is not strictly below. -/
def insertDescE {α : Type} (cmp : α → α → Option Ordering) (x : α) :
    List α → Except PyErr (List α)
  | [] => .ok [x]
  | y :: ys =>
    match cmp x y with
    | none => .error .typeError
    | some .lt =>
      match insertDescE cmp x ys with
      | .error e => .error e
      | .ok l => .ok (y :: l)
    | some .eq => .ok (x :: y :: ys)
    | some .gt => .ok (x :: y :: ys)

/-- Descending sort with error propagation. -/
def sortDescE {α : Type} (cmp : α → α → Option Ordering) :
    List α → Except PyErr (List α)
  | [] => .ok []
  | x :: xs =>
    match sortDescE cmp xs with
    | .error e => .error e
    | .ok l => insertDescE cmp x l

/-!
## Version Resolver (`_get_latest_tag`, tag selection of `_checkout_version`)
-/

/-- The sort key of `_get_latest_tag`: the text of a `ls-remote` line after
the last slash (the 'tag name' part of the line). -/
def lineTagName (t : List Char) : List Char :=
  (pySplitCh '/' t).getLastD []

/-- Comparator used by `_get_latest_tag`'s sort. -/
def lineCmp (a b : List Char) : Option Ordering :=
  lvCmp (lvParse (lineTagName a)) (lvParse (lineTagName b))

/-- `_get_latest_tag`, as a function of the raw stdout of
`git ls-remote --tags url` (what `g.ls_remote(repo_url, tags=True)`
returns): split into lines, sort descending by the `LooseVersion` of the
text after the last slash, then take line 0, the text after its first tab,
and the text after the last slash of that — or `None` if the line list is
empty (unreachable, since `split` never returns an empty list). -/
def getLatestTag (out : String) : Except PyErr (Option String) :=
  match sortDescE lineCmp (pySplitCh '\n' out.data) with
  | .error e => .error e
  | .ok [] => .ok none
  | .ok (t :: _) =>
    match (pySplitCh '\t' t).get? 1 with
    | none => .error .indexError
    | some s => .ok (some ⟨(pySplitCh '/' s).getLastD []⟩)

/-- Tag selection of `_checkout_version`'s `latest-release` branch:
`sorted` of the repository's tags by `LooseVersion` of the tag name,
descending, then the first — `none` when the repository has no tags. -/
def latestLocalTag (tags : List String) : Except PyErr (Option String) :=
  match sortDescE nameCmp tags with
  | .error e => .error e
  | .ok [] => .ok none
  | .ok (t :: _) => .ok (some t)

/-!
## Package Name Derivation (`_extract_name`)

The source computes the text after the last slash and then applies
Python's `str.replace` with pattern `.git` and an empty replacement, which
removes every (left-to-right, non-overlapping) occurrence of `.git`, not
only a trailing one.
-/

/-- Python `segment.replace(PATGIT, EMPTY)`: remove every left-to-right,
non-overlapping occurrence of the four characters dot-g-i-t. -/
def stripGit : List Char → List Char
  | [] => []
  | [c] => [c]
  | [c1, c2] => [c1, c2]
  | [c1, c2, c3] => [c1, c2, c3]
  | c1 :: c2 :: c3 :: c4 :: rest =>
    if c1 = '.' ∧ c2 = 'g' ∧ c3 = 'i' ∧ c4 = 't' then stripGit rest
    else c1 :: stripGit (c2 :: c3 :: c4 :: rest)

/-- The final path segment of a locator: the text after its last slash. -/
def lastSegment (url : String) : List Char :=
  (pySplitCh '/' url.data).getLastD []

/-- `_extract_name`: text after the last slash of the locator, with every
occurrence of `.git` removed. -/
def extractName (repoUrl : String) : String :=
  ⟨stripGit (lastSegment repoUrl)⟩

/-!
## Orchestrator state and collaborator oracles
-/

/-- One value of the metadata mapping: the dict written by `install`
(`url`, `source`, `manual`). -/
structure PkgRecord where
  url : String
  source : String
  manual : Bool
deriving DecidableEq, Repr

/-- The metadata mapping, as the association list underlying a Python dict
(unique keys, insertion order). -/
abbrev Metadata := List (String × PkgRecord)

/-- `self.metadata[k] = v`: replace in place when the key is present,
append otherwise. -/
def setRecord (m : Metadata) (k : String) (v : PkgRecord) : Metadata :=
  if m.any (fun p => p.1 == k) then
    m.map (fun p => if p.1 == k then (k, v) else p)
  else m ++ [(k, v)]

/-- `self.metadata.get(k)` / `k in self.metadata` combined. -/
def lookupRec (m : Metadata) (k : String) : Option PkgRecord :=
  (m.find? (fun p => p.1 == k)).map (fun p => p.2)

/-- Result of one call into the version-control collaborator.  `gitErr` is a
`GitCommandError`, `permErr` a `PermissionError`. -/
inductive VCRes where
  | ok
  | gitErr
  | permErr
deriving DecidableEq, Repr

/-- Oracles describing the external collaborators: GitPython, the remote
repository, the filesystem, and the build tools.  Workspaces are keyed by
package name (the workspace of name `n` lives at `packages/n`). -/
structure Env where
  /-- stdout of `git ls-remote --tags url`. -/
  lsRemoteOut : String → String
  /-- Result of `Repo.clone_from(url, path, branch?)`. -/
  cloneRes : String → Option String → VCRes
  /-- Result of `repo.git.checkout(ref)` in the named workspace. -/
  checkoutRes : String → String → VCRes
  /-- `repo.tags` of the named workspace (tag names). -/
  localTags : String → List String
  /-- Result of `repo.git.fetch(TAGSFLAG)` in the named workspace. -/
  fetchRes : String → VCRes
  /-- Result of `repo.remotes.origin.pull()` in the named workspace. -/
  pullRes : String → VCRes
  /-- Whether `Repo(path)` opens the named workspace without raising. -/
  repoOpenOk : String → Bool
  /-- Whether a `Makefile` exists in the named workspace. -/
  hasMakefile : String → Bool
  /-- Whether a `setup.py` exists in the named workspace. -/
  hasSetupPy : String → Bool
  /-- Whether `make -C path` exits 0. -/
  makeRes : String → Bool
  /-- Whether `sudo make -C path install` exits 0. -/
  makeInstallRes : String → Bool
  /-- Whether `sudo python3 -m pip install path` exits 0. -/
  pipRes : String → Bool

/-- The mutable state of one `Gitstaller` process: the in-memory
`self.metadata` dict, the persisted content of `installed.json`, the set of
existing workspace directories, and (as instrumentation) the list of
workspaces `_build_package` has been invoked on. -/
structure StoreState where
  metadata : Metadata
  saved : Metadata
  workspaces : List String
  builds : List String
deriving DecidableEq, Repr

/-- Observable outcome of one operation: the status line it prints, or the
uncaught exception it dies with. -/
inductive Outcome where
  | alreadyInstalled
  | installed
  | notFound
  | updated
  | opError
  | crashed (e : PyErr)
deriving DecidableEq, Repr

/-!
## `_build_package`

Runs `make` then `sudo make install` when a `Makefile` exists, otherwise
`sudo pip install` when a `setup.py` exists, otherwise nothing; a
`CalledProcessError` from any of these is caught inside and only reported.
The result lists the commands attempted and whether a failure was reported.
-/

/-- One subprocess invocation of `_build_package`. -/
inductive BCmd where
  | make
  | makeInstall
  | pip
deriving DecidableEq, Repr

/-- `_build_package`: commands attempted in order, and whether the
`except CalledProcessError` branch reported a build failure. -/
def buildPackage (env : Env) (p : String) : List BCmd × Bool :=
  if env.hasMakefile p then
    if env.makeRes p then
      if env.makeInstallRes p then ([.make, .makeInstall], false)
      else ([.make, .makeInstall], true)
    else ([.make], true)
  else if env.hasSetupPy p then
    if env.pipRes p then ([.pip], false) else ([.pip], true)
  else ([], false)

/-!
## `_checkout_version`, `install`, `update`, `reinstall`

`install`'s `try` block catches `GitCommandError` and `PermissionError`
(outcome `opError`); `update`'s catches only `GitCommandError`.  The
`IndexError`/`TypeError` that `_get_latest_tag` and the tag sorts can raise
are caught by neither and end the process (outcome `crashed`).
`_build_package` never raises (its failure handling is internal), so the
callers only record its invocation.  `_save_metadata` and the directory
bookkeeping are modelled as always succeeding.
-/

/-- `_checkout_version(repo, source_spec)` in the named workspace: checkout
`main`, or the newest local tag (warning and no checkout when there are no
tags), or the literal `source_spec`. -/
def checkoutVersion (env : Env) (ws : String) (sourceSpec : String) :
    Except PyErr VCRes :=
  if sourceSpec == "main" then .ok (env.checkoutRes ws "main")
  else if sourceSpec == "latest-release" then
    match latestLocalTag (env.localTags ws) with
    | .error e => .error e
    | .ok none => .ok .ok
    | .ok (some t) => .ok (env.checkoutRes ws t)
  else .ok (env.checkoutRes ws sourceSpec)

/-- Write the record and persist the store (`install` steps after a
successful checkout): optional build, then
`self.metadata[name] = record; self._save_metadata()`. -/
def finishInstall (st : StoreState) (name url source : String) (manual : Bool) :
    StoreState × Outcome :=
  let st1 := if manual then st else { st with builds := st.builds ++ [name] }
  let md := setRecord st1.metadata name ⟨url, source, manual⟩
  ({ st1 with metadata := md, saved := md }, .installed)

/-- The `try` body of `install` after the already-installed guard and the
reinstall delete: resolve-then-clone for `latest-release`, clone-then-
checkout otherwise, then `finishInstall` on success.  `st0` is the state
after the reinstall delete; a successful clone creates the workspace. -/
def installGo (env : Env) (st0 : StoreState) (name repoUrl source : String)
    (manual : Bool) : StoreState × Outcome :=
  if source == "latest-release" then
    match getLatestTag (env.lsRemoteOut repoUrl) with
    | .error e => (st0, .crashed e)
    | .ok latestTag =>
      match env.cloneRes repoUrl latestTag with
      | .ok =>
        finishInstall { st0 with workspaces := st0.workspaces ++ [name] }
          name repoUrl source manual
      | _ => (st0, .opError)
  else
    match env.cloneRes repoUrl none with
    | .ok =>
      match checkoutVersion env name source with
      | .error e =>
        ({ st0 with workspaces := st0.workspaces ++ [name] }, .crashed e)
      | .ok .ok =>
        finishInstall { st0 with workspaces := st0.workspaces ++ [name] }
          name repoUrl source manual
      | .ok _ =>
        ({ st0 with workspaces := st0.workspaces ++ [name] }, .opError)
    | _ => (st0, .opError)

/-- `install(repo_url, source, manual, reinstall)`. -/
def install (env : Env) (st : StoreState) (repoUrl source : String)
    (manual reinstall : Bool) : StoreState × Outcome :=
  if st.workspaces.contains (extractName repoUrl) && !reinstall then
    (st, .alreadyInstalled)
  else
    installGo env
      (if reinstall && st.workspaces.contains (extractName repoUrl) then
        { st with workspaces := st.workspaces.erase (extractName repoUrl) }
      else st)
      (extractName repoUrl) repoUrl source manual

/-- The fetch-and-checkout (or pull) step of `update`: for
`latest-release`, re-resolve the remote's newest tag and, when one is
found, `git fetch` the tags and check it out; otherwise pull the tracked
branch. -/
def updateSync (env : Env) (pr : PkgRecord) (packageName : String) :
    Except PyErr VCRes :=
  if pr.source == "latest-release" then
    match getLatestTag (env.lsRemoteOut pr.url) with
    | .error e => .error e
    | .ok none => .ok .ok
    | .ok (some tag) =>
      match env.fetchRes packageName with
      | .ok => .ok (env.checkoutRes packageName tag)
      | r => .ok r
  else .ok (env.pullRes packageName)

/-- `update(package_name, manual)`.

The source's line
`if not manual and not self.metadata[package_name].get('manual', False'):`
contains a stray apostrophe after `False` that makes the whole module a
Python `SyntaxError`; it is modelled here as the evident intent
`.get('manual', False)` (the surrounding comment reads 'Rebuild unless
manual flag is set'). -/
def update (env : Env) (st : StoreState) (packageName : String)
    (manual : Bool) : StoreState × Outcome :=
  match lookupRec st.metadata packageName with
  | none => (st, .notFound)
  | some pr =>
    if !(env.repoOpenOk packageName) then (st, .crashed .repoError)
    else
      match updateSync env pr packageName with
      | .error e => (st, .crashed e)
      | .ok .gitErr => (st, .opError)
      | .ok .permErr => (st, .crashed .permissionError)
      | .ok .ok =>
        (if !manual && !pr.manual then
            { st with builds := st.builds ++ [packageName] }
          else st,
         .updated)

/-- `reinstall(package_name, manual)`: delegate to `install` with the
record's stored url and source, `manual or stored manual`, and
`reinstall=True`. -/
def reinstall (env : Env) (st : StoreState) (packageName : String)
    (manual : Bool) : StoreState × Outcome :=
  match lookupRec st.metadata packageName with
  | none => (st, .notFound)
  | some pr => install env st pr.url pr.source (manual || pr.manual) true

/-- A collaborator oracle where every external call succeeds, every remote
has zero tags, and no build descriptor exists (used as the base point of
concrete witnesses). -/
def envAllOk : Env :=
  { lsRemoteOut := fun _ => ""
    cloneRes := fun _ _ => .ok
    checkoutRes := fun _ _ => .ok
    localTags := fun _ => []
    fetchRes := fun _ => .ok
    pullRes := fun _ => .ok
    repoOpenOk := fun _ => true
    hasMakefile := fun _ => false
    hasSetupPy := fun _ => false
    makeRes := fun _ => true
    makeInstallRes := fun _ => true
    pipRes := fun _ => true }

/-- The state of a fresh installation: empty store, no workspaces. -/
def stEmpty : StoreState := ⟨[], [], [], []⟩

/-!
## Order-theoretic facts about the loose comparison

Where defined, the `LooseVersion` comparison is reflexive, antisymmetric
under `Ordering.swap`, and transitive on its lt-or-eq fragment; these back
the correctness of the descending sort.
-/

/-- The comparison succeeded with lt or eq. -/
def leOpt (r : Option Ordering) : Prop :=
  r = some .lt ∨ r = some .eq

theorem natCmp_refl (m : Nat) : natCmp m m = .eq := by
  simp [natCmp]

theorem natCmp_eq {m n : Nat} (h : natCmp m n = .eq) : m = n := by
  unfold natCmp at h
  split at h
  · exact absurd h (by decide)
  · split at h
    · assumption
    · exact absurd h (by decide)

theorem natCmp_swap (m n : Nat) : natCmp n m = (natCmp m n).swap := by
  unfold natCmp
  by_cases h1 : m < n
  · rw [if_pos h1, if_neg (by omega), if_neg (by omega)]
    rfl
  · by_cases h2 : m = n
    · rw [if_neg (by omega), if_pos (by omega), if_neg h1, if_pos h2]
      rfl
    · rw [if_pos (by omega), if_neg h1, if_neg h2]
      rfl

theorem natCmp_lt_iff {m n : Nat} : natCmp m n = .lt ↔ m < n := by
  unfold natCmp
  by_cases h1 : m < n
  · simp [h1]
  · by_cases h2 : m = n
    · simp [h1, h2]
    · simp [h1, h2]

theorem chListCmp_refl (l : List Char) : chListCmp l l = .eq := by
  induction l with
  | nil => rfl
  | cons c cs ih => simp [chListCmp, natCmp_refl, ih]

theorem chListCmp_eq {a b : List Char} (h : chListCmp a b = .eq) : a = b := by
  induction a generalizing b with
  | nil =>
    cases b with
    | nil => rfl
    | cons y bs => exact absurd h (by simp [chListCmp])
  | cons x as ih =>
    cases b with
    | nil => exact absurd h (by simp [chListCmp])
    | cons y bs =>
      unfold chListCmp at h
      cases hx : natCmp x.toNat y.toNat with
      | eq =>
        rw [hx] at h
        simp only [] at h
        have hxy : x = y := Char.ext (UInt32.ext (natCmp_eq hx))
        rw [hxy, ih h]
      | lt => rw [hx] at h; simp at h
      | gt => rw [hx] at h; simp at h

theorem chListCmp_swap (a b : List Char) : chListCmp b a = (chListCmp a b).swap := by
  induction a generalizing b with
  | nil => cases b <;> rfl
  | cons x as ih =>
    cases b with
    | nil => rfl
    | cons y bs =>
      unfold chListCmp
      rw [natCmp_swap x.toNat y.toNat]
      cases hx : natCmp x.toNat y.toNat with
      | eq => exact ih bs
      | lt => rfl
      | gt => rfl

theorem chListCmp_cons (x y : Char) (as bs : List Char) :
    chListCmp (x :: as) (y :: bs) =
      match natCmp x.toNat y.toNat with
      | .eq => chListCmp as bs
      | o => o := by
  rw [chListCmp]

theorem chListCmp_lt_trans {a b c : List Char} (h1 : chListCmp a b = .lt)
    (h2 : chListCmp b c = .lt) : chListCmp a c = .lt := by
  induction a generalizing b c with
  | nil =>
    cases b with
    | nil => simp [chListCmp] at h1
    | cons y bs =>
      cases c with
      | nil => simp [chListCmp] at h2
      | cons z cs => simp [chListCmp]
  | cons x as ih =>
    cases b with
    | nil => simp [chListCmp] at h1
    | cons y bs =>
      cases c with
      | nil => simp [chListCmp] at h2
      | cons z cs =>
        rw [chListCmp_cons] at h1 h2 ⊢
        cases hxy : natCmp x.toNat y.toNat with
        | gt => rw [hxy] at h1; simp at h1
        | lt =>
          rw [hxy] at h1
          cases hyz : natCmp y.toNat z.toNat with
          | gt => rw [hyz] at h2; simp at h2
          | lt =>
            have hxz : natCmp x.toNat z.toNat = .lt :=
              natCmp_lt_iff.mpr
                (Nat.lt_trans (natCmp_lt_iff.mp hxy) (natCmp_lt_iff.mp hyz))
            rw [hxz]
          | eq =>
            have hz : y.toNat = z.toNat := natCmp_eq hyz
            rw [← hz, hxy]
        | eq =>
          rw [hxy] at h1
          simp only [] at h1
          have hy : x.toNat = y.toNat := natCmp_eq hxy
          cases hyz : natCmp y.toNat z.toNat with
          | gt => rw [hyz] at h2; simp at h2
          | lt => rw [hy, hyz]
          | eq =>
            rw [hyz] at h2
            simp only [] at h2
            rw [hy, hyz]
            exact ih h1 h2

theorem compCmp_refl (x : LVComp) : compCmp x x = some .eq := by
  cases x with
  | num n => simp [compCmp, natCmp_refl]
  | str s => simp [compCmp, chListCmp_refl]

theorem compCmp_eq {x y : LVComp} (h : compCmp x y = some .eq) : x = y := by
  cases x <;> cases y <;> simp [compCmp] at h ⊢
  · exact natCmp_eq h
  · exact chListCmp_eq h

theorem compCmp_swap {x y : LVComp} {o : Ordering} (h : compCmp x y = some o) :
    compCmp y x = some o.swap := by
  cases x <;> cases y <;> simp [compCmp] at h ⊢
  · rw [natCmp_swap, h]
  · rw [chListCmp_swap, h]

theorem compCmp_lt_trans {x y z : LVComp} (h1 : compCmp x y = some .lt)
    (h2 : compCmp y z = some .lt) : compCmp x z = some .lt := by
  cases x <;> cases y <;> cases z <;> simp [compCmp] at h1 h2 ⊢
  · exact natCmp_lt_iff.mpr (Nat.lt_trans (natCmp_lt_iff.mp h1) (natCmp_lt_iff.mp h2))
  · exact chListCmp_lt_trans h1 h2

theorem lvCmp_refl (a : List LVComp) : lvCmp a a = some .eq := by
  induction a with
  | nil => rfl
  | cons x as ih => simp [lvCmp, ih]

theorem lvCmp_swap {a b : List LVComp} {o : Ordering} (h : lvCmp a b = some o) :
    lvCmp b a = some o.swap := by
  induction a generalizing b o with
  | nil =>
    cases b with
    | nil => simp [lvCmp] at h ⊢; rw [← h]; rfl
    | cons y bs => simp [lvCmp] at h ⊢; rw [← h]; rfl
  | cons x as ih =>
    cases b with
    | nil => simp [lvCmp] at h ⊢; rw [← h]; rfl
    | cons y bs =>
      by_cases hxy : x = y
      · subst hxy
        rw [lvCmp, if_pos rfl] at h ⊢
        exact ih h
      · rw [lvCmp, if_neg hxy] at h
        rw [lvCmp, if_neg (fun hyx => hxy hyx.symm)]
        exact compCmp_swap h

theorem lvCmp_le_trans {a b c : List LVComp} (h1 : leOpt (lvCmp a b))
    (h2 : leOpt (lvCmp b c)) : leOpt (lvCmp a c) := by
  induction a generalizing b c with
  | nil =>
    cases c with
    | nil => exact Or.inr rfl
    | cons z cs => exact Or.inl rfl
  | cons x as ih =>
    cases b with
    | nil =>
      rcases h1 with h1 | h1 <;> exact absurd h1 (by simp [lvCmp])
    | cons y bs =>
      cases c with
      | nil =>
        rcases h2 with h2 | h2 <;> exact absurd h2 (by simp [lvCmp])
      | cons z cs =>
        by_cases hxy : x = y
        · subst hxy
          rw [lvCmp, if_pos rfl] at h1
          by_cases hyz : x = z
          · subst hyz
            rw [lvCmp, if_pos rfl] at h2 ⊢
            exact ih h1 h2
          · rw [lvCmp, if_neg hyz] at h2 ⊢
            exact h2
        · rw [lvCmp, if_neg hxy] at h1
          have h1lt : compCmp x y = some .lt := by
            rcases h1 with h1 | h1
            · exact h1
            · exact absurd (compCmp_eq h1) hxy
          by_cases hyz : y = z
          · subst hyz
            rw [lvCmp, if_neg hxy]
            exact Or.inl h1lt
          · rw [lvCmp, if_neg hyz] at h2
            have h2lt : compCmp y z = some .lt := by
              rcases h2 with h2 | h2
              · exact h2
              · exact absurd (compCmp_eq h2) hyz
            have hxz : x ≠ z := by
              intro he
              subst he
              have := compCmp_swap h1lt
              rw [this] at h2lt
              exact absurd h2lt (by decide)
            rw [lvCmp, if_neg hxz]
            exact Or.inl (compCmp_lt_trans h1lt h2lt)

/-!
## Correctness of the descending sort under pairwise comparability
-/

/-- `a` is at least `b` under the comparator (descending order relation). -/
def descRel {α : Type} (cmp : α → α → Option Ordering) (a b : α) : Prop :=
  leOpt (cmp b a)

theorem insertDescE_ok {α : Type} (cmp : α → α → Option Ordering)
    (hswap : ∀ a b o, cmp a b = some o → cmp b a = some o.swap)
    (htrans : ∀ a b c, leOpt (cmp a b) → leOpt (cmp b c) → leOpt (cmp a c))
    (x : α) (l : List α)
    (hc : ∀ b ∈ l, (cmp x b).isSome = true)
    (hs : l.Pairwise (descRel cmp)) :
    ∃ res, insertDescE cmp x l = .ok res ∧ res.Perm (x :: l) ∧
      res.Pairwise (descRel cmp) := by
  induction l with
  | nil => exact ⟨[x], rfl, List.Perm.refl _, by simp⟩
  | cons y ys ih =>
    have hxy : (cmp x y).isSome = true := hc y (by simp)
    cases hcv : cmp x y with
    | none => rw [hcv] at hxy; simp at hxy
    | some o =>
      cases o with
      | lt =>
        obtain ⟨res, h1, h2, h3⟩ :=
          ih (fun b hb => hc b (by simp [hb])) (List.Pairwise.of_cons hs)
        refine ⟨y :: res, ?_, ?_, ?_⟩
        · simp [insertDescE, hcv, h1]
        · exact (h2.cons y).trans (List.Perm.swap x y ys)
        · refine List.pairwise_cons.mpr ⟨?_, h3⟩
          intro u hu
          rcases List.mem_cons.mp (h2.mem_iff.mp hu) with hux | huy
          · rw [hux]
            exact Or.inl hcv
          · exact (List.pairwise_cons.mp hs).1 u huy
      | eq =>
        refine ⟨x :: y :: ys, by simp [insertDescE, hcv], List.Perm.refl _, ?_⟩
        have hyx : leOpt (cmp y x) := Or.inr (hswap x y .eq hcv)
        refine List.pairwise_cons.mpr ⟨?_, hs⟩
        intro u hu
        rcases List.mem_cons.mp hu with huy | huys
        · rw [huy]
          exact hyx
        · exact htrans u y x ((List.pairwise_cons.mp hs).1 u huys) hyx
      | gt =>
        refine ⟨x :: y :: ys, by simp [insertDescE, hcv], List.Perm.refl _, ?_⟩
        have hyx : leOpt (cmp y x) := Or.inl (hswap x y .gt hcv)
        refine List.pairwise_cons.mpr ⟨?_, hs⟩
        intro u hu
        rcases List.mem_cons.mp hu with huy | huys
        · rw [huy]
          exact hyx
        · exact htrans u y x ((List.pairwise_cons.mp hs).1 u huys) hyx

theorem sortDescE_ok {α : Type} (cmp : α → α → Option Ordering)
    (hswap : ∀ a b o, cmp a b = some o → cmp b a = some o.swap)
    (htrans : ∀ a b c, leOpt (cmp a b) → leOpt (cmp b c) → leOpt (cmp a c))
    (l : List α)
    (hc : ∀ a ∈ l, ∀ b ∈ l, (cmp a b).isSome = true) :
    ∃ res, sortDescE cmp l = .ok res ∧ res.Perm l ∧
      res.Pairwise (descRel cmp) := by
  induction l with
  | nil => exact ⟨[], rfl, List.Perm.refl _, by simp⟩
  | cons x xs ih =>
    obtain ⟨res, h1, h2, h3⟩ :=
      ih (fun a ha b hb => hc a (by simp [ha]) b (by simp [hb]))
    obtain ⟨res2, g1, g2, g3⟩ :=
      insertDescE_ok cmp hswap htrans x res
        (fun b hb => hc x (by simp) b (by simp [h2.mem_iff.mp hb])) h3
    exact ⟨res2, by simp [sortDescE, h1, g1], g2.trans (h2.cons x), g3⟩

/-- A pairwise-descending list is headed by a maximum. -/
theorem pairwise_head_max {α : Type} (cmp : α → α → Option Ordering)
    (hrefl : ∀ a, cmp a a = some .eq)
    (t : α) (rest : List α) (hp : (t :: rest).Pairwise (descRel cmp)) :
    ∀ u ∈ t :: rest, leOpt (cmp u t) := by
  intro u hu
  rcases List.mem_cons.mp hu with hut | hur
  · rw [hut]
    exact Or.inr (hrefl t)
  · exact (List.pairwise_cons.mp hp).1 u hur

/-!
## Facts about `_extract_name`'s suffix stripping
-/

theorem stripGit_cons4 (c1 c2 c3 c4 : Char) (rest : List Char) :
    stripGit (c1 :: c2 :: c3 :: c4 :: rest) =
      if c1 = '.' ∧ c2 = 'g' ∧ c3 = 'i' ∧ c4 = 't' then stripGit rest
      else c1 :: stripGit (c2 :: c3 :: c4 :: rest) := by
  rw [stripGit]

/-- A segment without an occurrence of `.git` is left unchanged. -/
theorem stripGit_id (l : List Char) (h : ¬ (['.', 'g', 'i', 't'] <:+: l)) :
    stripGit l = l := by
  induction l using stripGit.induct with
  | case1 => rfl
  | case2 c => rfl
  | case3 c1 c2 => rfl
  | case4 c1 c2 c3 => rfl
  | case5 c1 c2 c3 c4 rest hc ih =>
    obtain ⟨h1, h2, h3, h4⟩ := hc
    subst h1; subst h2; subst h3; subst h4
    exact absurd (List.IsPrefix.isInfix ⟨rest, rfl⟩) h
  | case6 c1 c2 c3 c4 rest hc ih =>
    rw [stripGit_cons4, if_neg hc]
    rw [ih (fun hinf => h (List.infix_cons hinf))]

/-- A segment whose only occurrence of `.git` is a trailing one loses
exactly that suffix. -/
theorem stripGit_append (base : List Char) (h : ¬ (['.', 'g', 'i', 't'] <:+: base)) :
    stripGit (base ++ ['.', 'g', 'i', 't']) = base := by
  induction base with
  | nil => rfl
  | cons c cs ih =>
    have hcs : ¬ (['.', 'g', 'i', 't'] <:+: cs) := fun hinf => h (List.infix_cons hinf)
    have ihc := ih hcs
    match cs with
    | [] =>
      simp only [List.cons_append, List.nil_append]
      rw [stripGit_cons4, if_neg (fun hc => absurd hc.2.1 (by decide))]
      rfl
    | [x] =>
      simp only [List.cons_append, List.nil_append]
      rw [stripGit_cons4, if_neg (fun hc => absurd hc.2.2.1 (by decide))]
      simp only [List.cons_append, List.nil_append] at ihc
      rw [ihc]
    | [x, y] =>
      simp only [List.cons_append, List.nil_append]
      rw [stripGit_cons4, if_neg (fun hc => absurd hc.2.2.2 (by decide))]
      simp only [List.cons_append, List.nil_append] at ihc
      rw [ihc]
    | x :: y :: z :: cs' =>
      simp only [List.cons_append]
      rw [stripGit_cons4]
      rw [if_neg (fun hc => by
        obtain ⟨h1, h2, h3, h4⟩ := hc
        subst h1; subst h2; subst h3; subst h4
        exact absurd (List.IsPrefix.isInfix ⟨cs', by simp⟩) h)]
      simp only [List.cons_append] at ihc
      rw [ihc]


/-!
## Facts about the metadata mapping
-/

/-- A key just written is found, with the value just written. -/
theorem lookupRec_setRecord (m : Metadata) (k : String) (v : PkgRecord) :
    lookupRec (setRecord m k v) k = some v := by
  induction m with
  | nil => simp [setRecord, lookupRec]
  | cons p ps ih =>
    by_cases hp : (p.1 == k) = true
    · have hkp : p.1 = k := by simpa using hp
      have hsr : setRecord (p :: ps) k v =
          (k, v) :: ps.map (fun q => if q.1 == k then (k, v) else q) := by
        simp [setRecord, List.any_cons, hp, hkp]
      rw [hsr]
      simp [lookupRec]
    · have hkp : ¬ p.1 = k := by simpa using hp
      by_cases hany : ps.any (fun q => q.1 == k) = true
      · have hsr : setRecord (p :: ps) k v =
            p :: ps.map (fun q => if q.1 == k then (k, v) else q) := by
          simp [setRecord, List.any_cons, hp, hany, hkp]
        have hsr2 : setRecord ps k v =
            ps.map (fun q => if q.1 == k then (k, v) else q) := by
          simp [setRecord, hany]
        rw [hsr2] at ih
        rw [hsr, lookupRec, List.find?_cons_of_neg]
        · exact ih
        · simpa using hp
      · have hsr : setRecord (p :: ps) k v = p :: (ps ++ [(k, v)]) := by
          simp [setRecord, List.any_cons, hp, hany]
        have hsr2 : setRecord ps k v = ps ++ [(k, v)] := by
          simp [setRecord, hany]
        rw [hsr2] at ih
        rw [hsr, lookupRec, List.find?_cons_of_neg]
        · exact ih
        · simpa using hp

theorem filter_map_upd (ps : Metadata) (k : String) (v : PkgRecord)
    (hnomem : ∀ q ∈ ps, (q.1 == k) = false) :
    ((ps.map (fun p => if p.1 == k then (k, v) else p)).filter
      (fun p => p.1 == k)) = [] := by
  induction ps with
  | nil => rfl
  | cons q qs ih =>
    have hq := hnomem q (by simp)
    rw [List.map_cons, if_neg (by simp [hq]), List.filter_cons, if_neg (by simp [hq])]
    exact ih (fun q2 hq2 => hnomem q2 (by simp [hq2]))

/-- After `setRecord` on a store with duplicate-free keys, exactly one
entry carries the written key. -/
theorem setRecord_count (m : Metadata) (k : String) (v : PkgRecord)
    (h : (m.map Prod.fst).Nodup) :
    ((setRecord m k v).filter (fun p => p.1 == k)).length = 1 := by
  induction m with
  | nil => simp [setRecord]
  | cons p ps ih =>
    rw [List.map_cons, List.nodup_cons] at h
    obtain ⟨hnotin, hnd⟩ := h
    by_cases hp : (p.1 == k) = true
    · have hkp : p.1 = k := by simpa using hp
      have hnomem : ∀ q ∈ ps, (q.1 == k) = false := by
        intro q hq
        by_contra hqk
        have hqk2 : q.1 = k := by
          simpa using hqk
        exact hnotin (by rw [hkp, ← hqk2]; exact List.mem_map_of_mem Prod.fst hq)
      have hsr : setRecord (p :: ps) k v =
          (k, v) :: ps.map (fun q => if q.1 == k then (k, v) else q) := by
        simp [setRecord, List.any_cons, hp, hkp]
      rw [hsr, List.filter_cons, if_pos (by simp), filter_map_upd ps k v hnomem]
      rfl
    · have hkp : ¬ p.1 = k := by simpa using hp
      by_cases hany : ps.any (fun q => q.1 == k) = true
      · have hsr : setRecord (p :: ps) k v =
            p :: ps.map (fun q => if q.1 == k then (k, v) else q) := by
          simp [setRecord, List.any_cons, hp, hany, hkp]
        have hsr2 : setRecord ps k v =
            ps.map (fun q => if q.1 == k then (k, v) else q) := by
          simp [setRecord, hany]
        rw [hsr2] at ih
        rw [hsr, List.filter_cons, if_neg (by simp [hp])]
        exact ih hnd
      · have hsr : setRecord (p :: ps) k v = p :: (ps ++ [(k, v)]) := by
          simp [setRecord, List.any_cons, hp, hany]
        have hsr2 : setRecord ps k v = ps ++ [(k, v)] := by
          simp [setRecord, hany]
        rw [hsr2] at ih
        rw [hsr, List.filter_cons, if_neg (by simp [hp])]
        exact ih hnd

/-!
## Shape facts about `install`
-/

theorem finishInstall_spec (st : StoreState) (name url source : String)
    (manual : Bool) :
    (finishInstall st name url source manual).2 = .installed ∧
    (finishInstall st name url source manual).1.metadata =
      setRecord st.metadata name ⟨url, source, manual⟩ ∧
    (finishInstall st name url source manual).1.saved =
      setRecord st.metadata name ⟨url, source, manual⟩ ∧
    (finishInstall st name url source manual).1.workspaces = st.workspaces := by
  unfold finishInstall
  by_cases hm : manual <;> simp [hm]

/-- `finishInstall` in equation form. -/
theorem finishInstall_eq (st : StoreState) (name url source : String)
    (manual : Bool) (st' : StoreState) (o : Outcome)
    (h : finishInstall st name url source manual = (st', o)) :
    o = .installed ∧
    st'.metadata = setRecord st.metadata name ⟨url, source, manual⟩ ∧
    st'.saved = setRecord st.metadata name ⟨url, source, manual⟩ ∧
    st'.workspaces = st.workspaces := by
  have hf := finishInstall_spec st name url source manual
  rw [h] at hf
  exact hf

/-- Whatever `installGo` reports as `installed` carries the new record in
both the in-memory and the persisted store, and its workspace exists. -/
theorem installGo_installed (env : Env) (st0 : StoreState)
    (name u s : String) (m : Bool) (st' : StoreState) (o : Outcome)
    (hgo : installGo env st0 name u s m = (st', o)) (ho : o = .installed) :
    st'.metadata = setRecord st0.metadata name ⟨u, s, m⟩ ∧
    st'.saved = setRecord st0.metadata name ⟨u, s, m⟩ ∧
    st'.workspaces = st0.workspaces ++ [name] := by
  subst ho
  unfold installGo at hgo
  split at hgo
  all_goals try split at hgo
  all_goals try split at hgo
  all_goals
    first
      | (obtain ⟨f1, f2, f3, f4⟩ := finishInstall_eq _ _ _ _ _ _ _ hgo
         exact ⟨f2, f3, f4⟩)
      | (injection hgo with h1 h2
         exact absurd h2 (by simp))

/-- When `installGo` reports the caught-and-printed installation error, the
metadata store (memory and file) is exactly what it was. -/
theorem installGo_opError (env : Env) (st0 : StoreState)
    (name u s : String) (m : Bool) (st' : StoreState) (o : Outcome)
    (hgo : installGo env st0 name u s m = (st', o)) (ho : o = .opError) :
    st'.metadata = st0.metadata ∧ st'.saved = st0.saved ∧
    st'.builds = st0.builds := by
  subst ho
  unfold installGo at hgo
  split at hgo
  all_goals try split at hgo
  all_goals try split at hgo
  all_goals
    first
      | (obtain ⟨f1, f2, f3, f4⟩ := finishInstall_eq _ _ _ _ _ _ _ hgo
         exact absurd f1 (by simp))
      | (injection hgo with h1 h2
         first
           | exact Outcome.noConfusion h2
           | (subst h1
              exact ⟨rfl, rfl, rfl⟩))

/-- An existing workspace with `reinstall` unset short-circuits `install`
to `alreadyInstalled` with no state change, regardless of the metadata. -/
theorem install_contains (env : Env) (st : StoreState) (u s : String)
    (m : Bool) (hc : st.workspaces.contains (extractName u) = true) :
    install env st u s m false = (st, .alreadyInstalled) := by
  unfold install
  rw [hc]
  rfl

/-- A reported `installed` writes exactly the record of this call and
leaves the workspace present. -/
theorem install_installed_record (env : Env) (st : StoreState) (u s : String)
    (m r : Bool) (st' : StoreState) (o : Outcome)
    (h : install env st u s m r = (st', o)) (ho : o = .installed) :
    st'.metadata = setRecord st.metadata (extractName u) ⟨u, s, m⟩ ∧
    st'.saved = setRecord st.metadata (extractName u) ⟨u, s, m⟩ ∧
    st'.workspaces.contains (extractName u) = true := by
  unfold install at h
  split at h
  · injection h with h1 h2
    rw [ho] at h2
    exact absurd h2 (by simp)
  · obtain ⟨g1, g2, g3⟩ := installGo_installed _ _ _ _ _ _ _ _ h ho
    refine ⟨?_, ?_, ?_⟩
    · rw [g1]
      congr 1
      split <;> rfl
    · rw [g2]
      congr 1
      split <;> rfl
    · rw [g3]
      simp

/-- A reported (caught) installation error leaves the metadata store,
its persisted file, and the build log untouched. -/
theorem install_opError_preserves (env : Env) (st : StoreState) (u s : String)
    (m r : Bool) (st' : StoreState) (o : Outcome)
    (h : install env st u s m r = (st', o)) (ho : o = .opError) :
    st'.metadata = st.metadata ∧ st'.saved = st.saved ∧
    st'.builds = st.builds := by
  unfold install at h
  split at h
  · injection h with h1 h2
    rw [ho] at h2
    exact absurd h2 (by simp)
  · obtain ⟨g1, g2, g3⟩ := installGo_opError _ _ _ _ _ _ _ _ h ho
    refine ⟨?_, ?_, ?_⟩
    · rw [g1]
      split <;> rfl
    · rw [g2]
      split <;> rfl
    · rw [g3]
      split <;> rfl

/-!
## `install` ignores the build collaborator's results
-/

theorem checkoutVersion_congr (env env2 : Env)
    (h3 : env2.checkoutRes = env.checkoutRes)
    (h4 : env2.localTags = env.localTags) (ws s : String) :
    checkoutVersion env2 ws s = checkoutVersion env ws s := by
  unfold checkoutVersion
  rw [h3, h4]

/-!
## The claims
-/

/-- C1: for a remote with zero tags, `_get_latest_tag` does not return the
'no tag available' signal: `ls_remote` yields the empty string, whose
one-element line split makes the guard truthy, and indexing `[1]` into the
tab-split of the empty line raises an uncaught `IndexError`, so
`install --source latest-release` crashes instead of falling back to the
default branch and succeeding. -/
theorem c1_zero_tags_install_crashes :
    getLatestTag "" = .error .indexError ∧
    install envAllOk stEmpty "https://example/foo.git" "latest-release"
        false false =
      (stEmpty, .crashed .indexError) :=
  ⟨rfl, rfl⟩

/-- C2 (counterexample): a non-empty tag set that mixes a purely numeric
and a purely alphabetic tag makes the loose comparison raise `TypeError`,
so `latest-release` resolution crashes instead of selecting the greatest
tag — both on local tags and on the `ls-remote` path. -/
theorem c2_mixed_tags_typeerror :
    latestLocalTag ["1", "a"] = .error .typeError ∧
    getLatestTag "h1\trefs/tags/1\nh2\trefs/tags/a" = .error .typeError :=
  ⟨rfl, rfl⟩

/-- C2 (amended): for every non-empty tag set whose tags are pairwise
comparable under the loose ordering, `latest-release` resolution returns a
member of the set that no member strictly exceeds under that ordering. -/
theorem c2_latest_release_selects_max (tags : List String)
    (hne : tags ≠ [])
    (hcomp : (tags.all fun a => tags.all fun b => (nameCmp a b).isSome) = true) :
    ∃ t, latestLocalTag tags = .ok (some t) ∧ t ∈ tags ∧
      ∀ u ∈ tags, nameCmp u t ≠ some .gt := by
  have hswap : ∀ a b o, nameCmp a b = some o → nameCmp b a = some o.swap :=
    fun a b o h => lvCmp_swap h
  have htrans : ∀ a b c, leOpt (nameCmp a b) → leOpt (nameCmp b c) →
      leOpt (nameCmp a c) :=
    fun a b c => lvCmp_le_trans
  have hc : ∀ a ∈ tags, ∀ b ∈ tags, (nameCmp a b).isSome = true := by
    simpa [List.all_eq_true] using hcomp
  obtain ⟨res, h1, h2, h3⟩ := sortDescE_ok nameCmp hswap htrans tags hc
  cases res with
  | nil => exact absurd h2.symm.eq_nil hne
  | cons t rest =>
    refine ⟨t, ?_, ?_, ?_⟩
    · simp [latestLocalTag, h1]
    · exact h2.subset (by simp)
    · intro u hu
      have hu2 : u ∈ t :: rest := h2.mem_iff.mpr hu
      have hle := pairwise_head_max nameCmp (fun a => lvCmp_refl _) t rest h3 u hu2
      rcases hle with h | h <;> simp [h]

theorem c2_latest_release_selects_max_witness :
    (["v1.2.0", "v1.9.0", "v1.10.0"].all fun a =>
      ["v1.2.0", "v1.9.0", "v1.10.0"].all fun b => (nameCmp a b).isSome) = true ∧
    (∃ t, latestLocalTag ["v1.2.0", "v1.9.0", "v1.10.0"] = .ok (some t) ∧
      t ∈ ["v1.2.0", "v1.9.0", "v1.10.0"] ∧
      ∀ u ∈ ["v1.2.0", "v1.9.0", "v1.10.0"], nameCmp u t ≠ some .gt) ∧
    latestLocalTag ["v1.2.0", "v1.9.0", "v1.10.0"] = .ok (some "v1.10.0") ∧
    getLatestTag
        "h1\trefs/tags/v1.2.0\nh2\trefs/tags/v1.9.0\nh3\trefs/tags/v1.10.0" =
      .ok (some "v1.10.0") :=
  ⟨rfl, c2_latest_release_selects_max _ (by simp) rfl, rfl, rfl⟩

/-- C3: whenever `install` reports the caught clone/checkout error
(`GitCommandError` or `PermissionError` from the version-control
collaborator), the operation has aborted: the in-memory metadata, the
persisted file, and the build log are exactly as before. -/
theorem c3_vc_error_aborts_install (env : Env) (st : StoreState)
    (u s : String) (m r : Bool)
    (h : (install env st u s m r).2 = .opError) :
    (install env st u s m r).1.metadata = st.metadata ∧
    (install env st u s m r).1.saved = st.saved ∧
    (install env st u s m r).1.builds = st.builds :=
  install_opError_preserves env st u s m r _ _ rfl h

def envCloneFail : Env := { envAllOk with cloneRes := fun _ _ => .gitErr }

theorem c3_vc_error_aborts_install_witness :
    (install envCloneFail stEmpty "https://example/foo.git" "main"
        false false).2 = .opError ∧
    ((install envCloneFail stEmpty "https://example/foo.git" "main"
        false false).1.metadata = stEmpty.metadata ∧
      (install envCloneFail stEmpty "https://example/foo.git" "main"
        false false).1.saved = stEmpty.saved ∧
      (install envCloneFail stEmpty "https://example/foo.git" "main"
        false false).1.builds = stEmpty.builds) :=
  ⟨rfl, c3_vc_error_aborts_install envCloneFail stEmpty
    "https://example/foo.git" "main" false false rfl⟩

/-- C9: `update` never assigns to the metadata dict and never calls
`_save_metadata`, whatever its outcome; it also never creates or destroys
a workspace.  Every record is therefore identical before and after. -/
theorem c9_update_never_mutates_store (env : Env) (st : StoreState)
    (n : String) (m : Bool) :
    (update env st n m).1.metadata = st.metadata ∧
    (update env st n m).1.saved = st.saved ∧
    (update env st n m).1.workspaces = st.workspaces := by
  unfold update
  split
  · exact ⟨rfl, rfl, rfl⟩
  · split
    · exact ⟨rfl, rfl, rfl⟩
    · split
      · exact ⟨rfl, rfl, rfl⟩
      · exact ⟨rfl, rfl, rfl⟩
      · exact ⟨rfl, rfl, rfl⟩
      · split <;> exact ⟨rfl, rfl, rfl⟩

/-- C10: `_build_package` with a Makefile runs only the make path (make,
then privileged make install) and never pip, whatever `setup.py` says; pip
runs exactly when there is no Makefile but a `setup.py`; with neither
descriptor nothing runs and no failure is reported. -/
theorem c10_build_descriptor_precedence (env : Env) (p : String) :
    (env.hasMakefile p = true →
      (buildPackage env p).1 =
        (if env.makeRes p = true then [BCmd.make, BCmd.makeInstall]
         else [BCmd.make])) ∧
    (env.hasMakefile p = false → env.hasSetupPy p = true →
      (buildPackage env p).1 = [BCmd.pip]) ∧
    (env.hasMakefile p = false → env.hasSetupPy p = false →
      buildPackage env p = ([], false)) := by
  refine ⟨?_, ?_, ?_⟩
  · intro h
    by_cases hm : env.makeRes p = true
    · by_cases hmi : env.makeInstallRes p = true <;>
        simp [buildPackage, h, hm, hmi]
    · simp [buildPackage, h, hm]
  · intro h h2
    by_cases hp : env.pipRes p = true <;> simp [buildPackage, h, h2, hp]
  · intro h h2
    simp [buildPackage, h, h2]

def envBoth : Env :=
  { envAllOk with hasMakefile := fun _ => true, hasSetupPy := fun _ => true }

def envSetupOnly : Env := { envAllOk with hasSetupPy := fun _ => true }

theorem c10_build_descriptor_precedence_witness :
    (envBoth.hasMakefile "p" = true ∧ envBoth.hasSetupPy "p" = true ∧
      (buildPackage envBoth "p").1 = [BCmd.make, BCmd.makeInstall]) ∧
    (envSetupOnly.hasMakefile "p" = false ∧ envSetupOnly.hasSetupPy "p" = true ∧
      (buildPackage envSetupOnly "p").1 = [BCmd.pip]) ∧
    (envAllOk.hasMakefile "p" = false ∧ envAllOk.hasSetupPy "p" = false ∧
      buildPackage envAllOk "p" = ([], false)) := by
  refine ⟨⟨rfl, rfl, ?_⟩, ⟨rfl, rfl, ?_⟩, ⟨rfl, rfl, ?_⟩⟩
  · have h := (c10_build_descriptor_precedence envBoth "p").1 rfl
    simpa using h
  · exact (c10_build_descriptor_precedence envSetupOnly "p").2.1 rfl rfl
  · exact (c10_build_descriptor_precedence envAllOk "p").2.2 rfl rfl

/-- C4: `install`'s outcome and resulting state do not depend on the build
collaborator's oracles at all (its failures are swallowed inside
`_build_package`), so a failing build neither aborts the install nor
prevents the record from being written; and a reported `installed` with
`manual=false` has written and persisted exactly this call's record. -/
theorem c4_build_failure_does_not_abort (env env2 : Env) (st : StoreState)
    (u s : String) (m r : Bool)
    (h1 : env2.lsRemoteOut = env.lsRemoteOut)
    (h2 : env2.cloneRes = env.cloneRes)
    (h3 : env2.checkoutRes = env.checkoutRes)
    (h4 : env2.localTags = env.localTags) :
    install env2 st u s m r = install env st u s m r ∧
    ((install env st u s false r).2 = .installed →
      lookupRec (install env st u s false r).1.metadata (extractName u) =
        some ⟨u, s, false⟩ ∧
      lookupRec (install env st u s false r).1.saved (extractName u) =
        some ⟨u, s, false⟩) := by
  constructor
  · unfold install installGo
    simp only [h1, h2, checkoutVersion_congr env env2 h3 h4]
  · intro hinst
    obtain ⟨g1, g2, g3⟩ :=
      install_installed_record env st u s false r
        (install env st u s false r).1 (install env st u s false r).2 rfl hinst
    rw [g1, g2]
    exact ⟨lookupRec_setRecord _ _ _, lookupRec_setRecord _ _ _⟩

def envBuildFail : Env :=
  { envAllOk with hasMakefile := fun _ => true, makeRes := fun _ => false }

theorem c4_build_failure_does_not_abort_witness :
    ((buildPackage envBuildFail "foo").2 = true ∧
      (install envBuildFail stEmpty "https://example/foo.git" "main"
        false false).2 = .installed) ∧
    install envAllOk stEmpty "https://example/foo.git" "main" false false =
      install envBuildFail stEmpty "https://example/foo.git" "main"
        false false ∧
    (lookupRec (install envBuildFail stEmpty "https://example/foo.git" "main"
          false false).1.metadata (extractName "https://example/foo.git") =
        some ⟨"https://example/foo.git", "main", false⟩ ∧
      lookupRec (install envBuildFail stEmpty "https://example/foo.git" "main"
          false false).1.saved (extractName "https://example/foo.git") =
        some ⟨"https://example/foo.git", "main", false⟩) := by
  have h := c4_build_failure_does_not_abort envBuildFail envAllOk stEmpty
    "https://example/foo.git" "main" false false rfl rfl rfl rfl
  exact ⟨⟨rfl, rfl⟩, h.1, h.2 rfl⟩

/-- C5: after a successful install, a second identical install without
`reinstall` reports already-installed and changes nothing; the store then
holds exactly one record for the canonical name; and the already-installed
test is decided solely by the existence of the on-disk workspace. -/
theorem c5_second_install_already_installed (env : Env) (st : StoreState)
    (u s : String) (m : Bool)
    (hnd : (st.metadata.map Prod.fst).Nodup)
    (h1 : (install env st u s m false).2 = .installed) :
    install env (install env st u s m false).1 u s m false =
      ((install env st u s m false).1, .alreadyInstalled) ∧
    ((install env st u s m false).1.metadata.filter
      (fun p => p.1 == extractName u)).length = 1 ∧
    (∀ st2 : StoreState, st2.workspaces.contains (extractName u) = true →
      install env st2 u s m false = (st2, .alreadyInstalled)) := by
  obtain ⟨g1, g2, g3⟩ := install_installed_record env st u s m false
    (install env st u s m false).1 (install env st u s m false).2 rfl h1
  refine ⟨install_contains env _ u s m g3, ?_,
    fun st2 hc => install_contains env st2 u s m hc⟩
  rw [g1]
  exact setRecord_count _ _ _ hnd

theorem c5_second_install_already_installed_witness :
    ((stEmpty.metadata.map Prod.fst).Nodup ∧
      (install envAllOk stEmpty "https://example/foo.git" "main"
        false false).2 = .installed) ∧
    install envAllOk
        (install envAllOk stEmpty "https://example/foo.git" "main"
          false false).1 "https://example/foo.git" "main" false false =
      ((install envAllOk stEmpty "https://example/foo.git" "main"
          false false).1, .alreadyInstalled) ∧
    ((install envAllOk stEmpty "https://example/foo.git" "main"
        false false).1.metadata.filter
      (fun p => p.1 == extractName "https://example/foo.git")).length = 1 := by
  have h := c5_second_install_already_installed envAllOk stEmpty
    "https://example/foo.git" "main" false (by decide) rfl
  exact ⟨⟨by decide, rfl⟩, h.1, h.2.1⟩

/-- C6 (counterexample): a final segment that does not end in `.git` is
still changed, because `replace` also removes an interior `.git`. -/
theorem c6_interior_git_removed :
    extractName "https://x/foo.github" = "foohub" ∧
    extractName "https://x/foo.github" ≠ "foo.github" :=
  ⟨rfl, by decide⟩

/-- C6 (amended): `_extract_name` removes every occurrence of `.git` from
the final path segment: a segment with no occurrence is unchanged, and a
segment whose only occurrence is a trailing `.git` loses exactly that
suffix. -/
theorem c6_extract_name_strips_git (url : String) :
    (¬ (['.', 'g', 'i', 't'] <:+: lastSegment url) →
      extractName url = ⟨lastSegment url⟩) ∧
    (∀ base : List Char, lastSegment url = base ++ ['.', 'g', 'i', 't'] →
      ¬ (['.', 'g', 'i', 't'] <:+: base) → extractName url = ⟨base⟩) := by
  constructor
  · intro h
    unfold extractName
    rw [stripGit_id _ h]
  · intro base hseg h
    unfold extractName
    rw [hseg, stripGit_append base h]

theorem c6_extract_name_strips_git_witness :
    (¬ (['.', 'g', 'i', 't'] <:+: lastSegment "https://host/tool") ∧
      extractName "https://host/tool" = "tool") ∧
    (lastSegment "https://host/repo.git" = "repo".data ++ ['.', 'g', 'i', 't'] ∧
      ¬ (['.', 'g', 'i', 't'] <:+: "repo".data) ∧
      extractName "https://host/repo.git" = "repo") := by
  refine ⟨⟨by decide, ?_⟩, by decide, by decide, ?_⟩
  · exact (c6_extract_name_strips_git "https://host/tool").1 (by decide)
  · exact (c6_extract_name_strips_git "https://host/repo.git").2
      "repo".data (by decide) (by decide)

/-- C7 (the evident intent of the syntactically broken line 136): `update`
appends a build exactly when both the call's `manual` flag and the stored
record's `manual` flag are false; in particular a stored `manual=true`
suppresses the rebuild regardless of the call's flag. -/
theorem c7_update_build_gate (env : Env) (st : StoreState) (n : String)
    (m : Bool) :
    (∀ pr, lookupRec st.metadata n = some pr → pr.manual = true →
      (update env st n m).1.builds = st.builds) ∧
    ((update env st n m).1.builds ≠ st.builds →
      m = false ∧ ∃ pr, lookupRec st.metadata n = some pr ∧ pr.manual = false) := by
  unfold update
  split
  · constructor
    · intro pr hpr hman
      rfl
    · intro hne
      exact absurd rfl hne
  · next pr heq =>
    split
    · constructor
      · intro pr2 h2 hman
        rfl
      · intro hne
        exact absurd rfl hne
    · split
      · constructor
        · intro pr2 h2 hman
          rfl
        · intro hne
          exact absurd rfl hne
      · constructor
        · intro pr2 h2 hman
          rfl
        · intro hne
          exact absurd rfl hne
      · constructor
        · intro pr2 h2 hman
          rfl
        · intro hne
          exact absurd rfl hne
      · constructor
        · intro pr2 h2 hman
          rw [heq] at h2
          injection h2 with h2
          subst h2
          simp [hman]
        · intro hne
          by_cases hmm : (!m && !pr.manual) = true
          · have hmf : m = false ∧ pr.manual = false := by
              simpa using hmm
            exact ⟨hmf.1, pr, heq, hmf.2⟩
          · exfalso
            apply hne
            simp [hmm]

def stManualTrue : StoreState :=
  ⟨[("pkg", ⟨"https://example/pkg.git", "main", true⟩)],
   [("pkg", ⟨"https://example/pkg.git", "main", true⟩)], ["pkg"], []⟩

def stManualFalse : StoreState :=
  ⟨[("pkg", ⟨"https://example/pkg.git", "main", false⟩)],
   [("pkg", ⟨"https://example/pkg.git", "main", false⟩)], ["pkg"], []⟩

theorem c7_update_build_gate_witness :
    (lookupRec stManualTrue.metadata "pkg" =
        some ⟨"https://example/pkg.git", "main", true⟩ ∧
      (update envAllOk stManualTrue "pkg" false).1.builds =
        stManualTrue.builds) ∧
    ((update envAllOk stManualFalse "pkg" false).1.builds ≠
        stManualFalse.builds ∧
      (false = false ∧ ∃ pr, lookupRec stManualFalse.metadata "pkg" = some pr ∧
        pr.manual = false)) := by
  refine ⟨⟨rfl, ?_⟩, ⟨by decide, ?_⟩⟩
  · exact (c7_update_build_gate envAllOk stManualTrue "pkg" false).1
      ⟨"https://example/pkg.git", "main", true⟩ rfl rfl
  · exact (c7_update_build_gate envAllOk stManualFalse "pkg" false).2 (by decide)

/-- C8: `reinstall` of an absent name reports not-found and does nothing;
otherwise it is literally `install` with the record's stored url and
source, `manual := caller's flag OR stored flag`, and `reinstall := true`;
in particular a successful manual=false reinstall of a manual=false record
re-records `manual=false`. -/
theorem c8_reinstall_delegates (env : Env) (st : StoreState) (n : String)
    (m : Bool) :
    (lookupRec st.metadata n = none → reinstall env st n m = (st, .notFound)) ∧
    (∀ pr, lookupRec st.metadata n = some pr →
      reinstall env st n m =
        install env st pr.url pr.source (m || pr.manual) true) ∧
    (∀ pr, lookupRec st.metadata n = some pr → pr.manual = false →
      (reinstall env st n false).2 = .installed →
      lookupRec (reinstall env st n false).1.metadata (extractName pr.url) =
        some ⟨pr.url, pr.source, false⟩) := by
  refine ⟨?_, ?_, ?_⟩
  · intro h
    unfold reinstall
    rw [h]
  · intro pr h
    unfold reinstall
    rw [h]
  · intro pr h hman hinst
    have hre : reinstall env st n false =
        install env st pr.url pr.source false true := by
      unfold reinstall
      rw [h]
      simp [hman]
    rw [hre] at hinst ⊢
    obtain ⟨g1, g2, g3⟩ :=
      install_installed_record env st pr.url pr.source false true
        (install env st pr.url pr.source false true).1
        (install env st pr.url pr.source false true).2 rfl hinst
    rw [g1]
    exact lookupRec_setRecord _ _ _

theorem c8_reinstall_delegates_witness :
    (lookupRec stEmpty.metadata "absent" = none ∧
      reinstall envAllOk stEmpty "absent" false = (stEmpty, .notFound)) ∧
    (lookupRec stManualFalse.metadata "pkg" =
        some ⟨"https://example/pkg.git", "main", false⟩ ∧
      reinstall envAllOk stManualFalse "pkg" false =
        install envAllOk stManualFalse "https://example/pkg.git" "main"
          false true) ∧
    ((reinstall envAllOk stManualFalse "pkg" false).2 = .installed ∧
      lookupRec (reinstall envAllOk stManualFalse "pkg" false).1.metadata
          (extractName "https://example/pkg.git") =
        some ⟨"https://example/pkg.git", "main", false⟩) := by
  refine ⟨⟨rfl, ?_⟩, ⟨rfl, ?_⟩, rfl, ?_⟩
  · exact (c8_reinstall_delegates envAllOk stEmpty "absent" false).1 rfl
  · exact (c8_reinstall_delegates envAllOk stManualFalse "pkg" false).2.1
      ⟨"https://example/pkg.git", "main", false⟩ rfl
  · exact (c8_reinstall_delegates envAllOk stManualFalse "pkg" false).2.2
      ⟨"https://example/pkg.git", "main", false⟩ rfl rfl rfl
